import Mathlib

/-!
# Verification of the parts-of-speech tagging notebook

Shallow embedding of the counting functions, the MFC baseline tagger, the
model-build loop and the accuracy evaluator of `parts-of-speech-tagging.ipynb`.

Python dictionaries are embedded as insertion-ordered association lists
`List (κ × ν)`; `d[k] += 1 if k in d else d[k] = 1` becomes `bump`, the
nested variant used by `pair_counts` becomes `bump2`.  Fallible operations
(Python indexing errors, `KeyError`, `ZeroDivisionError`) return `Option`.
Probabilities are embedded as exact rationals `ℚ`.
-/

set_option autoImplicit false
set_option linter.unusedSectionVars false

namespace PosTagging

variable {κ ν α β : Type} [DecidableEq κ] [DecidableEq α] [DecidableEq β]

/-- Python dictionary lookup `d[k]` on an insertion-ordered association
list: the first entry with key `k`, `none` modelling a `KeyError`. -/
def lookup : List (κ × ν) → κ → Option ν
  | [], _ => none
  | (k2, v) :: rest, k => if k = k2 then some v else lookup rest k

/-- The Python idiom `if k in d: d[k] += 1 else: d[k] = 1` of the counting
functions: increment the first entry with key `k`, appending `(k, 1)` when
the key is absent. -/
def bump : List (κ × ℕ) → κ → List (κ × ℕ)
  | [], k => [(k, 1)]
  | (k2, v) :: rest, k => if k = k2 then (k2, v + 1) :: rest else (k2, v) :: bump rest k

/-- The nested-dictionary update of `pair_counts`:
`if a in d and b in d[a]: d[a][b] += 1 elif a in d: d[a][b] = 1
else: d[a] = {b: 1}`. -/
def bump2 : List (α × List (β × ℕ)) → α → β → List (α × List (β × ℕ))
  | [], a, b => [(a, [(b, 1)])]
  | (a2, ws) :: rest, a, b =>
      if a = a2 then (a2, bump ws b) :: rest else (a2, ws) :: bump2 rest a b

/-- Sum of the counts stored in a flat dictionary. -/
def sumVals (d : List (κ × ℕ)) : ℕ := (d.map Prod.snd).sum

/-- Sum of all counts stored in a nested dictionary, `sum of d[a][b] over
all a, b`. -/
def sumD2 (d : List (α × List (β × ℕ))) : ℕ := (d.map fun p => sumVals p.2).sum

/-- The function `unigram_counts(sequences)`: occurrences of each element across all
sentences, by the notebook's double loop. -/
def unigram_counts (sequences : List (List α)) : List (α × ℕ) :=
  sequences.foldl (fun d sentence => sentence.foldl bump d) []

/-- The list of adjacent ordered pairs `(sentence[y], sentence[y+1])` for
`y = 0 .. len(sentence) - 2`, the pairs the inner loop of `bigram_counts`
visits for one sentence. -/
def sentenceBigrams (s : List α) : List (α × α) := s.zip s.tail

/-- The function `bigram_counts(sequences)`: counts each adjacent ordered pair inside
each sentence. -/
def bigram_counts (sequences : List (List α)) : List ((α × α) × ℕ) :=
  sequences.foldl (fun d sentence => (sentenceBigrams sentence).foldl bump d) []

/-- One step of `starting_counts`: `sentence[0]` raises `IndexError` on an
empty sentence, otherwise the count of the first element is bumped. -/
def startStep (d : List (α × ℕ)) : List α → Option (List (α × ℕ))
  | [] => none
  | x :: _ => some (bump d x)

/-- The loop of `starting_counts`, threading the count dictionary. -/
def startingGo : List (List α) → List (α × ℕ) → Option (List (α × ℕ))
  | [], d => some d
  | s :: rest, d =>
      match startStep d s with
      | none => none
      | some d2 => startingGo rest d2

/-- The function `starting_counts(sequences)`: counts the first element of
every sentence; `none` models the `IndexError` raised on an empty
sentence. -/
def starting_counts (sequences : List (List α)) : Option (List (α × ℕ)) :=
  startingGo sequences []

/-- One step of `ending_counts`: `sentence[len(sentence)-1]` raises
`IndexError` on an empty sentence, otherwise the count of the last element
is bumped. -/
def endStep (d : List (α × ℕ)) (s : List α) : Option (List (α × ℕ)) :=
  match s.getLast? with
  | none => none
  | some x => some (bump d x)

/-- The loop of `ending_counts`, threading the count dictionary. -/
def endingGo : List (List α) → List (α × ℕ) → Option (List (α × ℕ))
  | [], d => some d
  | s :: rest, d =>
      match endStep d s with
      | none => none
      | some d2 => endingGo rest d2

/-- The function `ending_counts(sequences)`: counts the last element of
every sentence; `none` models the `IndexError` raised on an empty
sentence. -/
def ending_counts (sequences : List (List α)) : Option (List (α × ℕ)) :=
  endingGo sequences []

/-- Inner loop of `pair_counts` over one sentence of `sequences_A`, carrying
the sentence index `x1` and the position index `x2`; every token performs
the access `sequences_B[x1][x2]`, whose failure (`IndexError`) makes the
whole computation fail. -/
def pcInner (seqB : List (List β)) (x1 : ℕ) :
    List α → ℕ → List (α × List (β × ℕ)) → Option (List (α × List (β × ℕ)))
  | [], _, d => some d
  | a :: rest, x2, d =>
      match seqB[x1]?.bind (fun sb => sb[x2]?) with
      | none => none
      | some t => pcInner seqB x1 rest (x2 + 1) (bump2 d a t)

/-- Outer loop of `pair_counts` over the sentences of `sequences_A`. -/
def pcOuter (seqB : List (List β)) :
    List (List α) → ℕ → List (α × List (β × ℕ)) → Option (List (α × List (β × ℕ)))
  | [], _, d => some d
  | s :: rest, x1, d =>
      match pcInner seqB x1 s 0 d with
      | none => none
      | some d2 => pcOuter seqB rest (x1 + 1) d2

/-- The function `pair_counts(sequences_A, sequences_B)`: nested counts
`result[seqA[i][j]][seqB[i][j]]`; `none` models the `IndexError` raised
when an access `sequences_B[x1][x2]` is out of range. -/
def pair_counts (seqA : List (List α)) (seqB : List (List β)) :
    Option (List (α × List (β × ℕ))) :=
  pcOuter seqB seqA 0 []

/-- Total number of tokens in a collection of sentences. -/
def totalTokens (seqs : List (List α)) : ℕ := (seqs.map List.length).sum

/-- Number of occurrences of `k` in a list (instance-free counter). -/
def countOcc (l : List κ) (k : κ) : ℕ := l.countP fun x => decide (x = k)

/-- The expression `sum(p == t for p, t in zip(most_likely_tags, actual_tags))` in
`accuracy`. -/
def countMatches (pred actual : List String) : ℕ :=
  (pred.zip actual).countP fun q => q.1 == q.2

/-- The evaluation loop of `accuracy`: the `(correct, total_predictions)`
accumulator threaded over `zip(X, Y)`; a decoding failure (`except: pass`)
leaves `correct` unchanged, while `total_predictions` always advances by
the length of the observation sentence. -/
def accLoop (decode : List String → Option (List String)) :
    List (List String × List String) → ℕ × ℕ → ℕ × ℕ
  | [], ct => ct
  | (observations, actual) :: rest, ct =>
      accLoop decode rest
        (match decode observations with
         | some tags => ct.1 + countMatches tags actual
         | none => ct.1,
         ct.2 + observations.length)

/-- The function `accuracy(X, Y, model)`: runs the evaluation loop and
returns `correct / total_predictions`; `none` models the
`ZeroDivisionError` raised when `total_predictions` is `0`.  The
per-sentence decoder is passed as a function
(`simplify_decoding(·, model)`), `none` modelling a decoding exception. -/
def accuracy (decode : List String → Option (List String))
    (X Y : List (List String)) : Option ℚ :=
  if (accLoop decode (X.zip Y) (0, 0)).2 = 0 then none
  else
    some (((accLoop decode (X.zip Y) (0, 0)).1 : ℚ) /
          ((accLoop decode (X.zip Y) (0, 0)).2 : ℚ))

/-- Specification-side total of correct predictions: each sentence whose
decoding fails contributes `0`. -/
def correctSum (decode : List String → Option (List String))
    (X Y : List (List String)) : ℕ :=
  ((X.zip Y).map fun p =>
    match decode p.1 with
    | some tags => countMatches tags p.2
    | none => 0).sum

/-- Modelled from the spec: `data.training_set.vocab` — provided by the
external `helpers.Dataset` collaborator, absent from the notebook — is
"the training vocabulary (set of words seen during training)". -/
def vocab (X : List (List String)) : List String := X.flatten.dedup

/-- The function `replace_unknown(sequence)`: every word outside the training
vocabulary is replaced by the literal string `'nan'`. -/
def replace_unknown (X : List (List String)) (sequence : List String) :
    List String :=
  sequence.map fun w => if w ∈ vocab X then w else "nan"

/-- One comparison step of Python's `max(iterable, key=...)`: the current
best is replaced only when the candidate's key is strictly greater. -/
def pickMax (best q : κ × ℕ) : κ × ℕ := if q.2 > best.2 then q else best

/-- Python's `max(word_counts[word].keys(), key=lambda k: word_counts[word][k])`:
the first key of maximal count in insertion order; `none` models the
`ValueError` raised by `max` on an empty dictionary. -/
def pymax : List (κ × ℕ) → Option κ
  | [] => none
  | p :: rest => some (rest.foldl pickMax p).1

/-- The `mfc_table` construction loop: for each word of the training
vocabulary, record the most frequently co-occurring tag. -/
def mfcLoop (wc : List (String × List (String × ℕ))) :
    List String → Option (List (String × String))
  | [] => some []
  | w :: rest =>
      match lookup wc w with
      | none => none
      | some tags =>
          match pymax tags with
          | none => none
          | some t =>
              match mfcLoop wc rest with
              | none => none
              | some tbl => some ((w, t) :: tbl)

/-- The table `mfc_table`: `word_counts = pair_counts(X, Y)` followed by the per-word
arg-max loop over the training vocabulary. -/
def mfc_table (X Y : List (List String)) : Option (List (String × String)) :=
  match pair_counts X Y with
  | none => none
  | some wc => mfcLoop wc (vocab X)

/-- The per-word decoding of `MFCTagger.viterbi`: `self.table[w]` on a
`defaultdict` that defaults to the `<MISSING>` fake state (the `<start>`
and `<end>` markers that `viterbi` adds are stripped again by
`simplify_decoding` and never reach the caller). -/
def mfcDecode (table : List (String × String)) (seq : List String) :
    List String :=
  seq.map fun w => (lookup table w).getD "<MISSING>"

/-- The keys of an association-list dictionary, in insertion order. -/
def keysOf (d : List (κ × ν)) : List κ := d.map Prod.fst

/-- Well-formedness of a nested count dictionary: outer keys distinct and
every inner dictionary has distinct keys. -/
def D2ok (d : List (α × List (β × ℕ))) : Prop :=
  (keysOf d).Nodup ∧ ∀ p ∈ d, (keysOf p.2).Nodup

/-- A node of the HMM transition graph: the synthetic start state
(`basic_model.start`), one state per tag, and the synthetic end state
(`basic_model.end`). -/
inductive Node where
  | start : Node
  | tag : String → Node
  | stop : Node
deriving DecidableEq

/-- The assembled HMM: the per-tag emission distributions added by
`add_state` and the transitions added by `add_transition`, in order. -/
structure Model where
  states : List (String × List (String × ℚ))
  transitions : List (Node × Node × ℚ)
deriving DecidableEq

/-- The first `basic_model` loop: for each tag of `emission_counts`, the
normalized emission distribution
`{key: value / total for key, value in emission_counts[tag].items()}` with
`total = tag_unigrams[tag]`; `none` models the `KeyError` on a tag absent
from `tag_unigrams` and the `ZeroDivisionError` on a zero total. -/
def statesLoop (unigrams : List (String × ℕ)) :
    List (String × List (String × ℕ)) →
      Option (List (String × List (String × ℚ)))
  | [] => some []
  | (tag, wc) :: rest =>
      match lookup unigrams tag with
      | none => none
      | some total =>
          if total = 0 then none
          else
            match statesLoop unigrams rest with
            | none => none
            | some sts =>
                some ((tag, wc.map fun p => (p.1, (p.2 : ℚ) / (total : ℚ))) :: sts)

/-- The second `basic_model` loop: for each observed bigram `(b0, b1)`,
three `add_transition` calls in source order — `start → b0` with
probability `tag_starts[b0] / len_data_y`, `b0 → b1` with
`tag_bigrams[bigram] / tag_unigrams[b0]`, and `b0 → end` with
`tag_ends[b0] / len_data_y`.  `none` models a `KeyError` on
`tag_starts[b0]`, `states[b0]`, `tag_unigrams[b0]`, `states[b1]` or
`tag_ends[b0]`, and a `ZeroDivisionError` on a zero denominator. -/
def transLoop (sts : List (String × List (String × ℚ)))
    (unigrams starts ends : List (String × ℕ)) (N : ℕ) :
    List ((String × String) × ℕ) → Option (List (Node × Node × ℚ))
  | [] => some []
  | ((b0, b1), c) :: rest =>
      match lookup starts b0 with
      | none => none
      | some s0 =>
          if N = 0 then none
          else
            match lookup sts b0 with
            | none => none
            | some _ =>
                match lookup unigrams b0 with
                | none => none
                | some u0 =>
                    if u0 = 0 then none
                    else
                      match lookup sts b1 with
                      | none => none
                      | some _ =>
                          match lookup ends b0 with
                          | none => none
                          | some e0 =>
                              match transLoop sts unigrams starts ends N rest with
                              | none => none
                              | some ts =>
                                  some ((Node.start, Node.tag b0, (s0 : ℚ) / (N : ℚ)) ::
                                        (Node.tag b0, Node.tag b1, (c : ℚ) / (u0 : ℚ)) ::
                                        (Node.tag b0, Node.stop, (e0 : ℚ) / (N : ℚ)) :: ts)

/-- The `basic_model` cell: `emission_counts = pair_counts(Y, X)`,
`tag_unigrams = unigram_counts(Y)`, `tag_bigrams = bigram_counts(Y)`,
`tag_starts = starting_counts(Y)`, `tag_ends = ending_counts(Y)`,
`len_data_y = len(data.training_set.Y)`, then the two build loops. -/
def basic_model (X Y : List (List String)) : Option Model :=
  match pair_counts Y X with
  | none => none
  | some ec =>
      match statesLoop (unigram_counts Y) ec with
      | none => none
      | some sts =>
          match starting_counts Y with
          | none => none
          | some starts =>
              match ending_counts Y with
              | none => none
              | some ends =>
                  match transLoop sts (unigram_counts Y) starts ends
                      Y.length (bigram_counts Y) with
                  | none => none
                  | some ts => some ⟨sts, ts⟩

/-- Recognizes a `start → tag t` transition. -/
def isStartEdge (t : String) : Node × Node × ℚ → Bool
  | (Node.start, Node.tag t2, _) => t2 == t
  | _ => false

/-- Recognizes a `tag t → end` transition. -/
def isStopEdge (t : String) : Node × Node × ℚ → Bool
  | (Node.tag t1, Node.stop, _) => t1 == t
  | _ => false

/-- Recognizes a `tag t → tag t2` transition. -/
def isTagEdge (t t2 : String) : Node × Node × ℚ → Bool
  | (Node.tag a, Node.tag b, _) => a == t && b == t2
  | _ => false

/-- Witness inputs: a one-sentence training corpus for the claims about
the model build. -/
def Xc1 : List (List String) := [["w", "v"]]

def Yc1 : List (List String) := [["A", "A"]]

def Mc1 : Model := (basic_model Xc1 Yc1).getD ⟨[], []⟩

def ECc1 : List (String × List (String × ℕ)) := (pair_counts Yc1 Xc1).getD []

def ENc1 : List (String × ℕ) := (ending_counts Yc1).getD []

/-- Witness decoder for the evaluator claims: fails on the sentence
`["b"]` and otherwise tags every word `"T"`. -/
def decodeC2 : List String → Option (List String) :=
  fun s => if s = ["b"] then none else some (s.map fun _ => "T")

def Xc2 : List (List String) := [["a"], ["b"]]

def Yc2 : List (List String) := [["T"], ["T"]]

def Xc6 : List (List String) := [["x", "y", "x"]]

def Yc6 : List (List String) := [["N", "V", "V"]]

def WCc6 : List (String × List (String × ℕ)) := (pair_counts Xc6 Yc6).getD []

def TBc6 : List (String × String) := (mfc_table Xc6 Yc6).getD []

def Xc8 : List (List String) :=
  [["p", "q"], ["r", "s"], ["u", "v"], ["m", "n"]]

def Yc8 : List (List String) :=
  [["A", "B"], ["A", "C"], ["B", "A"], ["C", "A"]]

def Mc8 : Model := (basic_model Xc8 Yc8).getD ⟨[], []⟩

def Xc9 : List (List String) := [["u", "v"]]

def Yc9 : List (List String) := [["A", "B"]]

def ECc9 : List (String × List (String × ℕ)) := (pair_counts Yc9 Xc9).getD []

def STc9 : List (String × ℕ) := (starting_counts Yc9).getD []

def ENc9 : List (String × ℕ) := (ending_counts Yc9).getD []

/-- Witness decoder for the zero-division claim. -/
def decodeC10 : List String → Option (List String) := fun _ => some []

theorem lookup_cons (k2 : κ) (v : ν) (rest : List (κ × ν)) (k : κ) :
    lookup ((k2, v) :: rest) k = if k = k2 then some v else lookup rest k := rfl

theorem map_getElem? {γ δ : Type} (f : γ → δ) :
    ∀ (l : List γ) (i : ℕ), (l.map f)[i]? = (l[i]?).map f := by
  intro l
  induction l with
  | nil => intro i; simp
  | cons a rest ih =>
      intro i
      cases i with
      | zero => simp
      | succ j => simp [ih j]

/-- Looking up in a bumped dictionary: the bumped key gains one, others are
unchanged (with absent keys read as count 0). -/
theorem lookup_bump (d : List (κ × ℕ)) (k k2 : κ) :
    ((lookup (bump d k) k2).getD 0) =
      (lookup d k2).getD 0 + (if k2 = k then 1 else 0) := by
  induction d with
  | nil =>
      by_cases h : k2 = k <;> simp [bump, lookup, h]
  | cons p rest ih =>
      obtain ⟨k3, v⟩ := p
      by_cases hk : k = k3
      · subst hk
        by_cases h2 : k2 = k <;> simp [bump, lookup, h2]
      · by_cases h2 : k2 = k3
        · subst h2
          have hne : ¬ k2 = k := fun h => hk h.symm
          simp [bump, lookup, hk, hne]
        · simp [bump, lookup, hk, h2, ih]

theorem sumVals_bump (d : List (κ × ℕ)) (k : κ) :
    sumVals (bump d k) = sumVals d + 1 := by
  induction d with
  | nil => simp [bump, sumVals]
  | cons p rest ih =>
      obtain ⟨k2, v⟩ := p
      by_cases hk : k = k2
      · simp [bump, hk, sumVals, Nat.add_assoc, Nat.add_comm 1]
      · simp [bump, hk, sumVals] at ih ⊢
        omega

theorem sumD2_bump2 (d : List (α × List (β × ℕ))) (a : α) (b : β) :
    sumD2 (bump2 d a b) = sumD2 d + 1 := by
  induction d with
  | nil => simp [bump2, sumD2, sumVals]
  | cons p rest ih =>
      obtain ⟨a2, ws⟩ := p
      by_cases ha : a = a2
      · simp [bump2, ha, sumD2, sumVals_bump, Nat.add_assoc, Nat.add_comm 1]
      · simp [bump2, ha, sumD2] at ih ⊢
        omega

/-- If the position `x2` is inside the sentence `seqB[x1]`, the access
`seqB[x1][x2]` succeeds. -/
theorem access_some (seqB : List (List β)) (x1 x2 : ℕ)
    (h : x2 < (seqB[x1]?.getD []).length) :
    ∃ sb t, seqB[x1]? = some sb ∧ sb[x2]? = some t := by
  cases hB : seqB[x1]? with
  | none => rw [hB] at h; simp at h
  | some sb =>
      rw [hB] at h
      simp only [Option.getD_some] at h
      exact ⟨sb, sb[x2], rfl, List.getElem?_eq_getElem h⟩

theorem pcInner_some (seqB : List (List β)) (x1 : ℕ) :
    ∀ (s : List α) (x2 : ℕ) (d : List (α × List (β × ℕ))),
      x2 + s.length ≤ (seqB[x1]?.getD []).length →
      ∃ d2, pcInner seqB x1 s x2 d = some d2 ∧ sumD2 d2 = sumD2 d + s.length := by
  intro s
  induction s with
  | nil => intro x2 d _; exact ⟨d, rfl, by simp⟩
  | cons a rest ih =>
      intro x2 d h
      obtain ⟨sb, t, hB, ht⟩ := access_some seqB x1 x2 (by simp at h; omega)
      obtain ⟨d2, hd2, hsum⟩ := ih (x2 + 1) (bump2 d a t) (by simp at h ⊢; omega)
      refine ⟨d2, ?_, ?_⟩
      · simp [pcInner, hB, ht, hd2]
      · rw [hsum, sumD2_bump2]
        simp [Nat.add_assoc, Nat.add_comm 1]

theorem pcInner_none (seqB : List (List β)) (x1 : ℕ) :
    ∀ (s : List α) (x2 : ℕ) (d : List (α × List (β × ℕ))),
      s ≠ [] → (seqB[x1]?.getD []).length < x2 + s.length →
      pcInner seqB x1 s x2 d = none := by
  intro s
  induction s with
  | nil => intro _ _ h; exact absurd rfl h
  | cons a rest ih =>
      intro x2 d _ h
      cases hacc : seqB[x1]?.bind (fun sb => sb[x2]?) with
      | none => simp [pcInner, hacc]
      | some t =>
          have hx2 : x2 < (seqB[x1]?.getD []).length := by
            cases hB : seqB[x1]? with
            | none => rw [hB] at hacc; simp at hacc
            | some sb =>
                rw [hB] at hacc
                simp only [Option.getD_some]
                simp only [Option.some_bind] at hacc
                obtain ⟨hlt, _⟩ := List.getElem?_eq_some.mp hacc
                exact hlt
          have hrest : rest ≠ [] := by
            intro hr
            subst hr
            simp at h
            omega
          simp only [pcInner, hacc]
          exact ih (x2 + 1) (bump2 d a t) hrest (by simp at h ⊢; omega)

theorem pcOuter_some (seqB : List (List β)) :
    ∀ (seqA : List (List α)) (x1 : ℕ) (d : List (α × List (β × ℕ))),
      (∀ k s, seqA[k]? = some s →
        s.length ≤ (seqB[x1 + k]?.getD []).length) →
      ∃ d2, pcOuter seqB seqA x1 d = some d2 ∧
        sumD2 d2 = sumD2 d + totalTokens seqA := by
  intro seqA
  induction seqA with
  | nil => intro x1 d _; exact ⟨d, rfl, by simp [totalTokens]⟩
  | cons s rest ih =>
      intro x1 d hsh
      obtain ⟨d2, hd2, hsum2⟩ := pcInner_some seqB x1 s 0 d (by
        have := hsh 0 s (by simp)
        simpa using this)
      obtain ⟨d3, hd3, hsum3⟩ := ih (x1 + 1) d2 (fun k sk hk => by
        have := hsh (k + 1) sk (by simpa using hk)
        simpa [Nat.add_assoc, Nat.add_comm 1] using this)
      refine ⟨d3, by simp [pcOuter, hd2, hd3], ?_⟩
      rw [hsum3, hsum2]
      simp [totalTokens, Nat.add_assoc]

theorem pcOuter_none (seqB : List (List β)) :
    ∀ (seqA : List (List α)) (x1 : ℕ) (d : List (α × List (β × ℕ))),
      (∃ k, ∃ s : List α, seqA[k]? = some s ∧
        (seqB[x1 + k]?.getD []).length < s.length) →
      pcOuter seqB seqA x1 d = none := by
  intro seqA
  induction seqA with
  | nil =>
      rintro x1 d ⟨k, s, hk, -⟩
      simp at hk
  | cons s0 rest ih =>
      rintro x1 d ⟨k, s, hk, hlt⟩
      cases k with
      | zero =>
          simp only [List.getElem?_cons_zero, Option.some_inj] at hk
          subst hk
          have hne : s0 ≠ [] := by
            intro hs
            subst hs
            simp at hlt
          rw [Nat.add_zero] at hlt
          simp [pcOuter, pcInner_none seqB x1 s0 0 d hne (by omega)]
      | succ k2 =>
          cases hfirst : pcInner seqB x1 s0 0 d with
          | none => simp [pcOuter, hfirst]
          | some d2 =>
              simp only [pcOuter, hfirst]
              exact ih (x1 + 1) d2 ⟨k2, s, by simpa using hk,
                by rw [Nat.add_assoc, Nat.add_comm 1]; exact hlt⟩

/-- The function `pair_counts` fails (an `IndexError`) exactly when some sentence of
`sequences_A` over-runs the corresponding sentence of `sequences_B` (or
`sequences_B` has no sentence at that index at all). -/
theorem pair_counts_none_iff (seqA : List (List α)) (seqB : List (List β)) :
    pair_counts seqA seqB = none ↔
      ∃ i : ℕ, ∃ s : List α, seqA[i]? = some s ∧ (seqB[i]?.getD []).length < s.length := by
  constructor
  · intro hnone
    by_contra hno
    push_neg at hno
    obtain ⟨d2, hd2, _⟩ := pcOuter_some seqB seqA 0 []
      (fun k s hk => by
        have := hno k s hk
        simpa using this)
    rw [pair_counts] at hnone
    rw [hd2] at hnone
    exact Option.noConfusion hnone
  · rintro ⟨i, s, hi, hlt⟩
    exact pcOuter_none seqB seqA 0 [] ⟨i, s, hi, by simpa using hlt⟩

theorem countOcc_cons (a : κ) (rest : List κ) (k : κ) :
    countOcc (a :: rest) k = countOcc rest k + (if a = k then 1 else 0) := by
  by_cases h : a = k <;> simp [countOcc, List.countP_cons, h]

theorem lookup_foldl_bump (l : List κ) :
    ∀ (d : List (κ × ℕ)) (k : κ),
      (lookup (l.foldl bump d) k).getD 0 = (lookup d k).getD 0 + countOcc l k := by
  induction l with
  | nil => intro d k; simp [countOcc]
  | cons a rest ih =>
      intro d k
      rw [List.foldl_cons, ih, lookup_bump, countOcc_cons]
      by_cases h : k = a
      · simp [h]
        omega
      · have h2 : ¬ a = k := fun hh => h hh.symm
        simp [h, h2]

theorem lookup_bigram_foldl (seqs : List (List α)) :
    ∀ (d : List ((α × α) × ℕ)) (p : α × α),
      (lookup (seqs.foldl (fun d s => (sentenceBigrams s).foldl bump d) d) p).getD 0 =
        (lookup d p).getD 0 + (seqs.map fun s => countOcc (sentenceBigrams s) p).sum := by
  induction seqs with
  | nil => intro d p; simp
  | cons s rest ih =>
      intro d p
      rw [List.foldl_cons, ih, lookup_foldl_bump]
      simp only [List.map_cons, List.sum_cons]
      omega

/-- The list `sentenceBigrams s` enumerates exactly the index-adjacent pairs of a
sentence. -/
theorem sentenceBigrams_get? (s : List α) :
    ∀ k : ℕ, (sentenceBigrams s)[k]? =
      s[k]?.bind fun a => s[k + 1]?.map fun b => (a, b) := by
  induction s with
  | nil => intro k; simp [sentenceBigrams]
  | cons a rest ih =>
      intro k
      cases rest with
      | nil => cases k <;> simp [sentenceBigrams]
      | cons b rest2 =>
          cases k with
          | zero => simp [sentenceBigrams]
          | succ k2 =>
              have := ih k2
              simpa [sentenceBigrams] using this

theorem accLoop_eq (decode : List String → Option (List String)) :
    ∀ (l : List (List String × List String)) (c0 t0 : ℕ),
      accLoop decode l (c0, t0) =
        (c0 + (l.map fun p =>
          match decode p.1 with
          | some tags => countMatches tags p.2
          | none => 0).sum,
         t0 + (l.map fun p => p.1.length).sum) := by
  intro l
  induction l with
  | nil => intro c0 t0; simp [accLoop]
  | cons p rest ih =>
      intro c0 t0
      obtain ⟨observations, actual⟩ := p
      rw [accLoop, ih]
      cases hdec : decode observations <;> simp [hdec, Nat.add_assoc]

theorem zip_fst_length_sum (X : List (List String)) :
    ∀ Y : List (List String), X.length = Y.length →
      ((X.zip Y).map fun p => p.1.length).sum = totalTokens X := by
  induction X with
  | nil => intro Y _; simp [totalTokens]
  | cons x rest ih =>
      intro Y hlen
      cases Y with
      | nil => simp at hlen
      | cons y yrest =>
          simp only [List.zip_cons_cons, List.map_cons, List.sum_cons]
          rw [ih yrest (by simpa using hlen)]
          simp [totalTokens]

theorem bump_cons_pos (k : κ) (v : ℕ) (rest : List (κ × ℕ)) :
    bump ((k, v) :: rest) k = (k, v + 1) :: rest := by
  simp [bump]

theorem bump_cons_neg (k k2 : κ) (v : ℕ) (rest : List (κ × ℕ))
    (h : k ≠ k2) : bump ((k2, v) :: rest) k = (k2, v) :: bump rest k := by
  simp [bump, h]

theorem bump2_cons_pos (a : α) (b : β) (ws : List (β × ℕ))
    (rest : List (α × List (β × ℕ))) :
    bump2 ((a, ws) :: rest) a b = (a, bump ws b) :: rest := by
  simp [bump2]

theorem bump2_cons_neg (a a2 : α) (b : β) (ws : List (β × ℕ))
    (rest : List (α × List (β × ℕ))) (h : a ≠ a2) :
    bump2 ((a2, ws) :: rest) a b = (a2, ws) :: bump2 rest a b := by
  simp [bump2, h]

theorem mem_keysOf_bump (d : List (κ × ℕ)) (k a : κ) :
    a ∈ keysOf (bump d k) ↔ a ∈ keysOf d ∨ a = k := by
  induction d with
  | nil => simp [bump, keysOf]
  | cons p rest ih =>
      obtain ⟨k2, v⟩ := p
      by_cases h : k = k2
      · subst h
        simp [bump, keysOf]
        tauto
      · simp [bump, h, keysOf] at ih ⊢
        tauto

theorem keysOf_bump_nodup (d : List (κ × ℕ)) (k : κ)
    (hnd : (keysOf d).Nodup) : (keysOf (bump d k)).Nodup := by
  induction d with
  | nil => simp [bump, keysOf]
  | cons p rest ih =>
      obtain ⟨k2, v⟩ := p
      simp only [keysOf, List.map_cons, List.nodup_cons] at hnd
      by_cases h : k = k2
      · subst h
        rw [bump_cons_pos]
        simp only [keysOf, List.map_cons, List.nodup_cons]
        exact ⟨hnd.1, hnd.2⟩
      · rw [bump_cons_neg k k2 v rest h]
        simp only [keysOf, List.map_cons, List.nodup_cons]
        refine ⟨?_, ih hnd.2⟩
        rw [show (bump rest k).map Prod.fst = keysOf (bump rest k) from rfl]
        rw [List.mem_iff_get?]
        intro hmem
        rw [← List.mem_iff_get?] at hmem
        rcases (mem_keysOf_bump rest k k2).mp hmem with h1 | h1
        · exact hnd.1 h1
        · exact h h1.symm

theorem mem_keysOf_bump2 (d : List (α × List (β × ℕ))) (a : α) (b : β) (x : α) :
    x ∈ keysOf (bump2 d a b) ↔ x ∈ keysOf d ∨ x = a := by
  induction d with
  | nil => simp [bump2, keysOf]
  | cons p rest ih =>
      obtain ⟨a2, ws⟩ := p
      by_cases h : a = a2
      · subst h
        simp [bump2, keysOf]
        tauto
      · simp [bump2, h, keysOf] at ih ⊢
        tauto

theorem D2ok_bump2 (d : List (α × List (β × ℕ))) (a : α) (b : β)
    (hok : D2ok d) : D2ok (bump2 d a b) := by
  induction d with
  | nil =>
      refine ⟨by simp [bump2, keysOf], ?_⟩
      intro p hp
      simp [bump2] at hp
      subst hp
      simp [keysOf]
  | cons q rest ih =>
      obtain ⟨a2, ws⟩ := q
      obtain ⟨hnd, hin⟩ := hok
      simp only [keysOf, List.map_cons, List.nodup_cons] at hnd
      by_cases h : a = a2
      · subst h
        constructor
        · rw [bump2_cons_pos]
          simp only [keysOf, List.map_cons, List.nodup_cons]
          exact hnd
        · intro p hp
          rw [bump2_cons_pos] at hp
          rcases List.mem_cons.mp hp with rfl | hmem
          · exact keysOf_bump_nodup ws b (hin (a, ws) (List.mem_cons_self _ _))
          · exact hin p (List.mem_cons_of_mem _ hmem)
      · have hok2 : D2ok rest := ⟨hnd.2, fun p hp => hin p (List.mem_cons_of_mem _ hp)⟩
        obtain ⟨ihnd, ihin⟩ := ih hok2
        refine ⟨?_, ?_⟩
        · rw [bump2_cons_neg a a2 b ws rest h]
          simp only [keysOf, List.map_cons, List.nodup_cons]
          refine ⟨?_, ihnd⟩
          intro hmem
          rcases (mem_keysOf_bump2 rest a b a2).mp hmem with h1 | h1
          · exact hnd.1 h1
          · exact h h1.symm
        · intro p hp
          rw [bump2_cons_neg a a2 b ws rest h] at hp
          rcases List.mem_cons.mp hp with rfl | hmem
          · exact hin (a2, ws) (List.mem_cons_self _ _)
          · exact ihin p hmem

theorem pcInner_D2ok (seqB : List (List β)) (x1 : ℕ) :
    ∀ (s : List α) (x2 : ℕ) (d d2 : List (α × List (β × ℕ))),
      pcInner seqB x1 s x2 d = some d2 → D2ok d → D2ok d2 := by
  intro s
  induction s with
  | nil =>
      intro x2 d d2 h hok
      simp [pcInner] at h
      subst h
      exact hok
  | cons a rest ih =>
      intro x2 d d2 h hok
      cases hacc : seqB[x1]?.bind (fun sb => sb[x2]?) with
      | none => rw [pcInner, hacc] at h; exact Option.noConfusion h
      | some t =>
          rw [pcInner, hacc] at h
          exact ih (x2 + 1) (bump2 d a t) d2 h (D2ok_bump2 d a t hok)

theorem pcOuter_D2ok (seqB : List (List β)) :
    ∀ (seqA : List (List α)) (x1 : ℕ) (d d2 : List (α × List (β × ℕ))),
      pcOuter seqB seqA x1 d = some d2 → D2ok d → D2ok d2 := by
  intro seqA
  induction seqA with
  | nil =>
      intro x1 d d2 h hok
      simp [pcOuter] at h
      subst h
      exact hok
  | cons s rest ih =>
      intro x1 d d2 h hok
      cases hfirst : pcInner seqB x1 s 0 d with
      | none => rw [pcOuter, hfirst] at h; exact Option.noConfusion h
      | some dmid =>
          rw [pcOuter, hfirst] at h
          exact ih (x1 + 1) dmid d2 h (pcInner_D2ok seqB x1 s 0 d dmid hfirst hok)

/-- Any successful `pair_counts` result has distinct outer keys and
distinct keys in every inner dictionary. -/
theorem pair_counts_D2ok (seqA : List (List α)) (seqB : List (List β))
    (d : List (α × List (β × ℕ))) (h : pair_counts seqA seqB = some d) :
    D2ok d :=
  pcOuter_D2ok seqB seqA 0 [] d h ⟨by simp [keysOf], by simp⟩

theorem lookup_eq_of_mem (d : List (κ × ν)) (k : κ) (v : ν)
    (hnd : (keysOf d).Nodup) (h : (k, v) ∈ d) : lookup d k = some v := by
  induction d with
  | nil => simp at h
  | cons p rest ih =>
      obtain ⟨k2, v2⟩ := p
      simp only [keysOf, List.map_cons, List.nodup_cons] at hnd
      rcases List.mem_cons.mp h with h1 | h1
      · rw [Prod.mk.injEq] at h1
        obtain ⟨hk, hv⟩ := h1
        subst hk; subst hv
        simp [lookup]
      · have hne : k ≠ k2 := by
          intro he
          subst he
          exact hnd.1 (by simp [keysOf]; exact ⟨v, h1⟩)
        simp only [lookup, if_neg hne]
        exact ih hnd.2 h1

theorem pickMax_foldl (rest : List (κ × ℕ)) :
    ∀ p : κ × ℕ, rest.foldl pickMax p ∈ p :: rest ∧
      p.2 ≤ (rest.foldl pickMax p).2 ∧
      ∀ q ∈ rest, q.2 ≤ (rest.foldl pickMax p).2 := by
  induction rest with
  | nil => intro p; simp
  | cons q rest2 ih =>
      intro p
      rw [List.foldl_cons]
      obtain ⟨ihmem, ihle, ihall⟩ := ih (pickMax p q)
      have hple : p.2 ≤ (pickMax p q).2 := by
        by_cases h : q.2 > p.2 <;> simp [pickMax, h] <;> omega
      have hqle : q.2 ≤ (pickMax p q).2 := by
        by_cases h : q.2 > p.2 <;> simp [pickMax, h] <;> omega
      refine ⟨?_, Nat.le_trans hple ihle, ?_⟩
      · rcases List.mem_cons.mp ihmem with h1 | h1
        · rw [h1]
          by_cases h : q.2 > p.2 <;> simp [pickMax, h]
        · simp [h1]
      · intro r hr
        rcases List.mem_cons.mp hr with h1 | h1
        · rw [h1]; exact Nat.le_trans hqle ihle
        · exact ihall r h1

/-- The arg-max `pymax` returns a key of the dictionary achieving the maximal count. -/
theorem pymax_spec (tags : List (κ × ℕ)) (t : κ) (h : pymax tags = some t) :
    ∃ c : ℕ, (t, c) ∈ tags ∧ ∀ q ∈ tags, q.2 ≤ c := by
  cases tags with
  | nil => exact Option.noConfusion h
  | cons p rest =>
      rw [pymax, Option.some_inj] at h
      obtain ⟨hmem, hle, hall⟩ := pickMax_foldl rest p
      refine ⟨(rest.foldl pickMax p).2, ?_, ?_⟩
      · rw [← h]
        exact hmem
      · intro q hq
        rcases List.mem_cons.mp hq with h1 | h1
        · rw [h1]; exact hle
        · exact hall q h1

theorem mfcLoop_some (wc : List (String × List (String × ℕ))) :
    ∀ (ws : List String) (tbl : List (String × String)),
      mfcLoop wc ws = some tbl →
      (∀ w, w ∈ ws →
        ∃ tags t, lookup wc w = some tags ∧ pymax tags = some t ∧
          lookup tbl w = some t) ∧
      (∀ w, w ∉ ws → lookup tbl w = none) := by
  intro ws
  induction ws with
  | nil =>
      intro tbl h
      simp [mfcLoop] at h
      subst h
      exact ⟨fun w hw => absurd hw (List.not_mem_nil w), fun w _ => rfl⟩
  | cons w0 rest ih =>
      intro tbl h
      cases htags : lookup wc w0 with
      | none => simp [mfcLoop, htags] at h
      | some tags0 =>
          cases hmax : pymax tags0 with
          | none => simp [mfcLoop, htags, hmax] at h
          | some t0 =>
              cases hrest : mfcLoop wc rest with
              | none => simp [mfcLoop, htags, hmax, hrest] at h
              | some tbl0 =>
                  simp only [mfcLoop, htags, hmax, hrest, Option.some_inj] at h
                  subst h
                  obtain ⟨ihmem, ihnot⟩ := ih tbl0 hrest
                  constructor
                  · intro w hw
                    by_cases hw0 : w = w0
                    · subst hw0
                      exact ⟨tags0, t0, htags, hmax, by simp [lookup]⟩
                    · obtain ⟨tags, t, h1, h2, h3⟩ :=
                        ihmem w (by rcases List.mem_cons.mp hw with h4 | h4;
                                    exact absurd h4 hw0; exact h4)
                      exact ⟨tags, t, h1, h2, by simp [lookup, hw0, h3]⟩
                  · intro w hw
                    have hw0 : w ≠ w0 := by
                      intro he; exact hw (by simp [he])
                    have hwrest : w ∉ rest := fun he => hw (by simp [he])
                    simp [lookup, hw0, ihnot w hwrest]

theorem lookup_some_mem (d : List (κ × ν)) (k : κ) (v : ν)
    (h : lookup d k = some v) : (k, v) ∈ d := by
  induction d with
  | nil => exact Option.noConfusion h
  | cons p rest ih =>
      obtain ⟨k2, v2⟩ := p
      by_cases hk : k = k2
      · subst hk
        simp [lookup] at h
        simp [h]
      · simp only [lookup, if_neg hk] at h
        exact List.mem_cons_of_mem _ (ih h)

theorem lookup_map_ratio (l : List (String × ℕ)) (total : ℕ) (w : String) :
    lookup (l.map fun p => (p.1, (p.2 : ℚ) / (total : ℚ))) w =
      (lookup l w).map fun c => (c : ℚ) / (total : ℚ) := by
  induction l with
  | nil => simp [lookup]
  | cons p rest ih =>
      obtain ⟨w2, c2⟩ := p
      by_cases hw : w = w2
      · subst hw
        simp [lookup]
      · simp [lookup, hw, ih]

theorem statesLoop_lookup (unigrams : List (String × ℕ)) :
    ∀ (ec : List (String × List (String × ℕ)))
      (sts : List (String × List (String × ℚ)))
      (t : String) (wc : List (String × ℕ)),
      statesLoop unigrams ec = some sts → lookup ec t = some wc →
      ∃ total : ℕ, lookup unigrams t = some total ∧ total ≠ 0 ∧
        lookup sts t =
          some (wc.map fun p => (p.1, (p.2 : ℚ) / (total : ℚ))) := by
  intro ec
  induction ec with
  | nil =>
      intro sts t wc h hl
      exact Option.noConfusion hl
  | cons q rest ih =>
      intro sts t wc h hl
      obtain ⟨tag0, wc0⟩ := q
      cases hu : lookup unigrams tag0 with
      | none => simp [statesLoop, hu] at h
      | some total0 =>
          by_cases hz : total0 = 0
          · simp [statesLoop, hu, hz] at h
          · cases hrest : statesLoop unigrams rest with
            | none => simp [statesLoop, hu, hz, hrest] at h
            | some sts0 =>
                simp only [statesLoop, hu, if_neg hz, hrest,
                  Option.some_inj] at h
                subst h
                by_cases ht : t = tag0
                · subst ht
                  rw [lookup_cons, if_pos rfl, Option.some_inj] at hl
                  subst hl
                  exact ⟨total0, hu, hz, by simp [lookup]⟩
                · simp only [lookup, if_neg ht] at hl
                  obtain ⟨total, h1, h2, h3⟩ := ih sts0 t wc hrest hl
                  exact ⟨total, h1, h2, by simp [lookup, ht, h3]⟩

theorem transLoop_cons_some (sts : List (String × List (String × ℚ)))
    (unigrams starts ends : List (String × ℕ)) (N : ℕ)
    (b0 b1 : String) (c : ℕ) (rest : List ((String × String) × ℕ))
    (ts : List (Node × Node × ℚ))
    (h : transLoop sts unigrams starts ends N (((b0, b1), c) :: rest) = some ts) :
    ∃ (s0 u0 e0 : ℕ) (ts0 : List (Node × Node × ℚ)),
      lookup starts b0 = some s0 ∧ lookup unigrams b0 = some u0 ∧
      lookup ends b0 = some e0 ∧ N ≠ 0 ∧ u0 ≠ 0 ∧
      transLoop sts unigrams starts ends N rest = some ts0 ∧
      ts = (Node.start, Node.tag b0, (s0 : ℚ) / (N : ℚ)) ::
           (Node.tag b0, Node.tag b1, (c : ℚ) / (u0 : ℚ)) ::
           (Node.tag b0, Node.stop, (e0 : ℚ) / (N : ℚ)) :: ts0 := by
  cases hs0 : lookup starts b0 with
  | none => simp [transLoop, hs0] at h
  | some s0 =>
      by_cases hN : N = 0
      · simp [transLoop, hs0, hN] at h
      · cases hb0 : lookup sts b0 with
        | none => simp [transLoop, hs0, hN, hb0] at h
        | some x0 =>
            cases hu0 : lookup unigrams b0 with
            | none => simp [transLoop, hs0, hN, hb0, hu0] at h
            | some u0 =>
                by_cases hz : u0 = 0
                · simp [transLoop, hs0, hN, hb0, hu0, hz] at h
                · cases hb1 : lookup sts b1 with
                  | none => simp [transLoop, hs0, hN, hb0, hu0, hz, hb1] at h
                  | some x1 =>
                      cases he0 : lookup ends b0 with
                      | none =>
                          simp [transLoop, hs0, hN, hb0, hu0, hz, hb1, he0] at h
                      | some e0 =>
                          cases hrec : transLoop sts unigrams starts ends N rest with
                          | none =>
                              simp [transLoop, hs0, hN, hb0, hu0, hz, hb1,
                                he0, hrec] at h
                          | some ts0 =>
                              simp only [transLoop, hs0, if_neg hN, hb0, hu0,
                                if_neg hz, hb1, he0, hrec, Option.some_inj] at h
                              exact ⟨s0, u0, e0, ts0, rfl, rfl, rfl, hN, hz,
                                rfl, h.symm⟩

theorem transLoop_cons_none (sts : List (String × List (String × ℚ)))
    (unigrams starts ends : List (String × ℕ)) (N : ℕ)
    (b0 b1 : String) (c : ℕ) (rest : List ((String × String) × ℕ))
    (hrec : transLoop sts unigrams starts ends N rest = none) :
    transLoop sts unigrams starts ends N (((b0, b1), c) :: rest) = none := by
  cases hs0 : lookup starts b0 with
  | none => simp [transLoop, hs0]
  | some s0 =>
      by_cases hN : N = 0
      · simp [transLoop, hs0, hN]
      · cases hb0 : lookup sts b0 with
        | none => simp [transLoop, hs0, hN, hb0]
        | some x0 =>
            cases hu0 : lookup unigrams b0 with
            | none => simp [transLoop, hs0, hN, hb0, hu0]
            | some u0 =>
                by_cases hz : u0 = 0
                · simp [transLoop, hs0, hN, hb0, hu0, hz]
                · cases hb1 : lookup sts b1 with
                  | none => simp [transLoop, hs0, hN, hb0, hu0, hz, hb1]
                  | some x1 =>
                      cases he0 : lookup ends b0 with
                      | none => simp [transLoop, hs0, hN, hb0, hu0, hz, hb1, he0]
                      | some e0 =>
                          simp [transLoop, hs0, hN, hb0, hu0, hz, hb1, he0, hrec]

theorem transLoop_cons_gate_none (sts : List (String × List (String × ℚ)))
    (unigrams starts ends : List (String × ℕ)) (N : ℕ)
    (b0 b1 : String) (c : ℕ) (rest : List ((String × String) × ℕ))
    (hgate : lookup starts b0 = none ∨ lookup ends b0 = none) :
    transLoop sts unigrams starts ends N (((b0, b1), c) :: rest) = none := by
  rcases hgate with hgate | hgate
  · simp [transLoop, hgate]
  · cases hs0 : lookup starts b0 with
    | none => simp [transLoop, hs0]
    | some s0 =>
        by_cases hN : N = 0
        · simp [transLoop, hs0, hN]
        · cases hb0 : lookup sts b0 with
          | none => simp [transLoop, hs0, hN, hb0]
          | some x0 =>
              cases hu0 : lookup unigrams b0 with
              | none => simp [transLoop, hs0, hN, hb0, hu0]
              | some u0 =>
                  by_cases hz : u0 = 0
                  · simp [transLoop, hs0, hN, hb0, hu0, hz]
                  · cases hb1 : lookup sts b1 with
                    | none => simp [transLoop, hs0, hN, hb0, hu0, hz, hb1]
                    | some x1 =>
                        simp [transLoop, hs0, hN, hb0, hu0, hz, hb1, hgate]

theorem basic_model_some (X Y : List (List String)) (m : Model)
    (h : basic_model X Y = some m) :
    ∃ ec sts starts ends ts,
      pair_counts Y X = some ec ∧
      statesLoop (unigram_counts Y) ec = some sts ∧
      starting_counts Y = some starts ∧
      ending_counts Y = some ends ∧
      transLoop sts (unigram_counts Y) starts ends Y.length
        (bigram_counts Y) = some ts ∧
      m = ⟨sts, ts⟩ := by
  cases hec : pair_counts Y X with
  | none => simp [basic_model, hec] at h
  | some ec =>
      cases hsts : statesLoop (unigram_counts Y) ec with
      | none => simp [basic_model, hec, hsts] at h
      | some sts =>
          cases hst : starting_counts Y with
          | none => simp [basic_model, hec, hsts, hst] at h
          | some starts =>
              cases hen : ending_counts Y with
              | none => simp [basic_model, hec, hsts, hst, hen] at h
              | some ends =>
                  cases hts : transLoop sts (unigram_counts Y) starts ends
                      Y.length (bigram_counts Y) with
                  | none => simp [basic_model, hec, hsts, hst, hen, hts] at h
                  | some ts =>
                      simp only [basic_model, hec, hsts, hst, hen, hts,
                        Option.some_inj] at h
                      exact ⟨ec, sts, starts, ends, ts, rfl, hsts, rfl, rfl,
                        hts, h.symm⟩

theorem transLoop_mem (sts : List (String × List (String × ℚ)))
    (unigrams starts ends : List (String × ℕ)) (N : ℕ) :
    ∀ (bgs : List ((String × String) × ℕ)) (ts : List (Node × Node × ℚ)),
      transLoop sts unigrams starts ends N bgs = some ts →
      ∀ b0 b1 c, ((b0, b1), c) ∈ bgs →
      ∃ s0 u0 e0 : ℕ,
        lookup starts b0 = some s0 ∧ lookup unigrams b0 = some u0 ∧
        lookup ends b0 = some e0 ∧
        (Node.start, Node.tag b0, (s0 : ℚ) / (N : ℚ)) ∈ ts ∧
        (Node.tag b0, Node.tag b1, (c : ℚ) / (u0 : ℚ)) ∈ ts ∧
        (Node.tag b0, Node.stop, (e0 : ℚ) / (N : ℚ)) ∈ ts := by
  intro bgs
  induction bgs with
  | nil =>
      intro ts _ b0 b1 c hmem
      simp at hmem
  | cons q rest ih =>
      intro ts h b0 b1 c hmem
      obtain ⟨⟨a0, a1⟩, ac⟩ := q
      obtain ⟨s0, u0, e0, ts0, hs0, hu0, he0, _, _, hrec, hts⟩ :=
        transLoop_cons_some sts unigrams starts ends N a0 a1 ac rest ts h
      subst hts
      rcases List.mem_cons.mp hmem with h1 | h1
      · rw [Prod.mk.injEq, Prod.mk.injEq] at h1
        obtain ⟨⟨hb0, hb1⟩, hc⟩ := h1
        subst hb0; subst hb1; subst hc
        exact ⟨s0, u0, e0, hs0, hu0, he0, by simp, by simp, by simp⟩
      · obtain ⟨s1, u1, e1, h2, h3, h4, h5, h6, h7⟩ := ih ts0 hrec b0 b1 c h1
        exact ⟨s1, u1, e1, h2, h3, h4, by simp [h5], by simp [h6], by simp [h7]⟩

theorem transLoop_counts (sts : List (String × List (String × ℚ)))
    (unigrams starts ends : List (String × ℕ)) (N : ℕ) (t : String) :
    ∀ (bgs : List ((String × String) × ℕ)) (ts : List (Node × Node × ℚ)),
      transLoop sts unigrams starts ends N bgs = some ts →
      ts.countP (isStartEdge t) = bgs.countP (fun bc => decide (bc.1.1 = t)) ∧
      ts.countP (isStopEdge t) = bgs.countP (fun bc => decide (bc.1.1 = t)) ∧
      ∀ t2, ts.countP (isTagEdge t t2) =
        bgs.countP (fun bc => decide (bc.1 = (t, t2))) := by
  intro bgs
  induction bgs with
  | nil =>
      intro ts h
      simp only [transLoop, Option.some_inj] at h
      subst h
      exact ⟨rfl, rfl, fun _ => rfl⟩
  | cons q rest ih =>
      intro ts h
      obtain ⟨⟨a0, a1⟩, ac⟩ := q
      obtain ⟨s0, u0, e0, ts0, _, _, _, _, _, hrec, hts⟩ :=
        transLoop_cons_some sts unigrams starts ends N a0 a1 ac rest ts h
      subst hts
      obtain ⟨ih1, ih2, ih3⟩ := ih ts0 hrec
      refine ⟨?_, ?_, ?_⟩
      · simp only [List.countP_cons, ih1]
        by_cases ha : a0 = t
        · subst ha
          simp [isStartEdge]
        · simp [isStartEdge, ha, beq_iff_eq]
      · simp only [List.countP_cons, ih2]
        by_cases ha : a0 = t
        · subst ha
          simp [isStopEdge]
        · simp [isStopEdge, ha, beq_iff_eq]
      · intro t2
        simp only [List.countP_cons, ih3 t2]
        by_cases ha : a0 = t
        · subst ha
          by_cases hb : a1 = t2
          · subst hb
            simp [isTagEdge]
          · simp [isTagEdge, hb, beq_iff_eq]
        · simp [isTagEdge, ha, beq_iff_eq, Prod.ext_iff]

theorem transLoop_start_prob (sts : List (String × List (String × ℚ)))
    (unigrams starts ends : List (String × ℕ)) (N : ℕ) :
    ∀ (bgs : List ((String × String) × ℕ)) (ts : List (Node × Node × ℚ)),
      transLoop sts unigrams starts ends N bgs = some ts →
      ∀ (t : String) (p : ℚ), (Node.start, Node.tag t, p) ∈ ts →
      ∃ s0 : ℕ, lookup starts t = some s0 ∧ p = (s0 : ℚ) / (N : ℚ) := by
  intro bgs
  induction bgs with
  | nil =>
      intro ts h t p hmem
      simp only [transLoop, Option.some_inj] at h
      subst h
      simp at hmem
  | cons q rest ih =>
      intro ts h t p hmem
      obtain ⟨⟨a0, a1⟩, ac⟩ := q
      obtain ⟨s0, u0, e0, ts0, hs0, _, _, _, _, hrec, hts⟩ :=
        transLoop_cons_some sts unigrams starts ends N a0 a1 ac rest ts h
      subst hts
      rcases List.mem_cons.mp hmem with h1 | h1
      · rw [Prod.mk.injEq, Prod.mk.injEq] at h1
        obtain ⟨-, htag, hp⟩ := h1
        cases Node.tag.inj htag
        exact ⟨s0, hs0, hp⟩
      · rcases List.mem_cons.mp h1 with h2 | h2
        · exact absurd (congrArg Prod.fst h2.symm) (by simp)
        · rcases List.mem_cons.mp h2 with h3 | h3
          · exact absurd (congrArg Prod.fst h3.symm) (by simp)
          · exact ih ts0 hrec t p h3

theorem transLoop_stop_prob (sts : List (String × List (String × ℚ)))
    (unigrams starts ends : List (String × ℕ)) (N : ℕ) :
    ∀ (bgs : List ((String × String) × ℕ)) (ts : List (Node × Node × ℚ)),
      transLoop sts unigrams starts ends N bgs = some ts →
      ∀ (t : String) (p : ℚ), (Node.tag t, Node.stop, p) ∈ ts →
      ∃ e0 : ℕ, lookup ends t = some e0 ∧ p = (e0 : ℚ) / (N : ℚ) := by
  intro bgs
  induction bgs with
  | nil =>
      intro ts h t p hmem
      simp only [transLoop, Option.some_inj] at h
      subst h
      simp at hmem
  | cons q rest ih =>
      intro ts h t p hmem
      obtain ⟨⟨a0, a1⟩, ac⟩ := q
      obtain ⟨s0, u0, e0, ts0, _, _, he0, _, _, hrec, hts⟩ :=
        transLoop_cons_some sts unigrams starts ends N a0 a1 ac rest ts h
      subst hts
      rcases List.mem_cons.mp hmem with h1 | h1
      · exact absurd (congrArg (fun e => e.2.1) h1.symm) (by simp)
      · rcases List.mem_cons.mp h1 with h2 | h2
        · exact absurd (congrArg (fun e => e.2.1) h2.symm) (by simp)
        · rcases List.mem_cons.mp h2 with h3 | h3
          · rw [Prod.mk.injEq, Prod.mk.injEq] at h3
            obtain ⟨htag, -, hp⟩ := h3
            cases Node.tag.inj htag
            exact ⟨e0, he0, hp⟩
          · exact ih ts0 hrec t p h3

theorem foldl_bump_keysOf_nodup (l : List κ) :
    ∀ d : List (κ × ℕ), (keysOf d).Nodup → (keysOf (l.foldl bump d)).Nodup := by
  induction l with
  | nil => intro d h; exact h
  | cons a rest ih =>
      intro d h
      rw [List.foldl_cons]
      exact ih (bump d a) (keysOf_bump_nodup d a h)

theorem bigram_foldl_keysOf_nodup (seqs : List (List α)) :
    ∀ d : List ((α × α) × ℕ), (keysOf d).Nodup →
      (keysOf (seqs.foldl (fun d s => (sentenceBigrams s).foldl bump d) d)).Nodup := by
  induction seqs with
  | nil => intro d h; exact h
  | cons s rest ih =>
      intro d h
      rw [List.foldl_cons]
      exact ih _ (foldl_bump_keysOf_nodup (sentenceBigrams s) d h)

/-- The keys of `bigram_counts` are pairwise distinct: each observed bigram
appears exactly once as a dictionary key. -/
theorem bigram_counts_keysOf_nodup (seqs : List (List α)) :
    (keysOf (bigram_counts seqs)).Nodup :=
  bigram_foldl_keysOf_nodup seqs [] (by simp [keysOf])

theorem transLoop_missing_none (sts : List (String × List (String × ℚ)))
    (unigrams starts ends : List (String × ℕ)) (N : ℕ) :
    ∀ bgs : List ((String × String) × ℕ),
      (∃ b0 b1 c, ((b0, b1), c) ∈ bgs ∧
        (lookup starts b0 = none ∨ lookup ends b0 = none)) →
      transLoop sts unigrams starts ends N bgs = none := by
  intro bgs
  induction bgs with
  | nil =>
      rintro ⟨b0, b1, c, hmem, -⟩
      simp at hmem
  | cons q rest ih =>
      rintro ⟨b0, b1, c, hmem, hgate⟩
      obtain ⟨⟨a0, a1⟩, ac⟩ := q
      rcases List.mem_cons.mp hmem with h1 | h1
      · rw [Prod.mk.injEq, Prod.mk.injEq] at h1
        obtain ⟨⟨hb0, hb1⟩, hc⟩ := h1
        subst hb0; subst hb1; subst hc
        exact transLoop_cons_gate_none sts unigrams starts ends N b0 b1 c rest hgate
      · exact transLoop_cons_none sts unigrams starts ends N a0 a1 ac rest
          (ih ⟨b0, b1, c, h1, hgate⟩)

theorem accLoop_total_zero (decode : List String → Option (List String))
    (X Y : List (List String)) (h : ∀ s ∈ X, s = []) :
    (accLoop decode (X.zip Y) (0, 0)).2 = 0 := by
  rw [accLoop_eq]
  simp only
  rw [Nat.zero_add]
  apply List.sum_eq_zero
  intro x hx
  simp only [List.mem_map] at hx
  obtain ⟨p, hp, hlen⟩ := hx
  have hmem := List.of_mem_zip hp
  rw [h p.1 hmem.1] at hlen
  simpa using hlen.symm

/-- Claim C2 — for parallel collections `X`, `Y` with a positive token
total, `accuracy` returns `correct / total` where `total` counts the
tokens of every sentence of `X` (failed sentences included) and each
sentence whose decoding fails contributes `0` to `correct`; the failure
never propagates (the result is `some _`, not an exception). -/
theorem c2_accuracy_conservative (decode : List String → Option (List String))
    (X Y : List (List String)) (hlen : X.length = Y.length)
    (hT : totalTokens X ≠ 0) :
    accuracy decode X Y =
      some ((correctSum decode X Y : ℚ) / (totalTokens X : ℚ)) := by
  have h1 : accLoop decode (X.zip Y) (0, 0) =
      (correctSum decode X Y, totalTokens X) := by
    rw [accLoop_eq, zip_fst_length_sum X Y hlen]
    simp [correctSum]
  simp only [accuracy, h1]
  rw [if_neg hT]

theorem c2_accuracy_conservative_witness :
    Xc2.length = Yc2.length ∧ totalTokens Xc2 ≠ 0 ∧
    accuracy decodeC2 Xc2 Yc2 =
      some ((correctSum decodeC2 Xc2 Yc2 : ℚ) / (totalTokens Xc2 : ℚ)) :=
  ⟨rfl, by decide, c2_accuracy_conservative decodeC2 Xc2 Yc2 rfl (by decide)⟩

/-- Claim C3 — the policy `replace_unknown` preserves the length of the sequence,
replaces every word outside the training vocabulary by the sentinel
`"nan"`, and leaves every in-vocabulary word unchanged. -/
theorem c3_replace_unknown_sentinel (X : List (List String))
    (seq : List String) :
    (replace_unknown X seq).length = seq.length ∧
    ∀ i : ℕ, (replace_unknown X seq)[i]? =
      seq[i]?.map fun w => if w ∈ vocab X then w else "nan" := by
  refine ⟨by simp [replace_unknown], ?_⟩
  intro i
  rw [replace_unknown, map_getElem?]

/-- Claim C4 — on outer collections of equal length with pairwise equal
sentence lengths, `pair_counts` succeeds and its nested counts sum to the
total token count. -/
theorem c4_pair_counts_sum (seqA : List (List α)) (seqB : List (List β))
    (hlen : seqA.length = seqB.length)
    (hpair : ∀ (i : ℕ) (a : List α) (b : List β),
      seqA[i]? = some a → seqB[i]? = some b → a.length = b.length) :
    (pair_counts seqA seqB).map sumD2 = some (totalTokens seqA) := by
  obtain ⟨d2, hd2, hsum⟩ := pcOuter_some seqB seqA 0 [] (fun k s hk => by
    have hklt : k < seqA.length := (List.getElem?_eq_some.mp hk).1
    have hkB : k < seqB.length := hlen ▸ hklt
    have hb : seqB[k]? = some (seqB[k]) := List.getElem?_eq_getElem hkB
    have hle := hpair k s (seqB[k]) hk hb
    rw [Nat.zero_add, hb]
    simpa using Nat.le_of_eq hle)
  rw [pair_counts, hd2]
  simp only [Option.map_some']
  rw [hsum]
  simp [sumD2]

theorem c4_pair_counts_sum_witness :
    ([["a", "b"], ["c"]] : List (List String)).length =
      ([["x", "y"], ["z"]] : List (List String)).length ∧
    (pair_counts [["a", "b"], ["c"]] [["x", "y"], ["z"]]).map sumD2 =
      some (totalTokens ([["a", "b"], ["c"]] : List (List String))) :=
  ⟨rfl, c4_pair_counts_sum [["a", "b"], ["c"]] [["x", "y"], ["z"]] rfl (by
    intro i a b ha hb
    cases i with
    | zero =>
        simp only [List.getElem?_cons_zero, Option.some_inj] at ha hb
        subst ha; subst hb; rfl
    | succ j =>
        cases j with
        | zero =>
            simp only [List.getElem?_cons_succ, List.getElem?_cons_zero,
              Option.some_inj] at ha hb
            subst ha; subst hb; rfl
        | succ j2 => simp at ha)⟩

/-- Claim C5 — the count `bigram_counts` stores for any pair is exactly
the summed number of index-adjacent occurrences of the pair inside the
individual sentences, so no counted pair ever spans two sentences; and
`sentenceBigrams` enumerates exactly the pairs `(s[k], s[k+1])`. -/
theorem c5_bigrams_within_sentence (seqs : List (List α)) (p : α × α) :
    (lookup (bigram_counts seqs) p).getD 0 =
      (seqs.map fun s => countOcc (sentenceBigrams s) p).sum ∧
    ∀ (s : List α) (k : ℕ), (sentenceBigrams s)[k]? =
      s[k]?.bind fun a => s[k + 1]?.map fun b => (a, b) := by
  refine ⟨?_, sentenceBigrams_get?⟩
  have := lookup_bigram_foldl seqs [] p
  simpa [bigram_counts, lookup] using this

/-- Claim C7 (amended) — mismatched paired sequences do not raise a
dedicated error: `pair_counts` fails (a plain `IndexError`) exactly when a
sentence of the first collection over-runs its counterpart in the second,
silently processing every other mismatch, and `accuracy` never fails on a
shape mismatch (`zip` truncates): it fails only on a zero token total. -/
theorem c7_no_malformed_sequence_error (seqA : List (List α))
    (seqB : List (List β)) (decode : List String → Option (List String))
    (X Y : List (List String)) :
    (pair_counts seqA seqB = none ↔
      ∃ i : ℕ, ∃ s : List α, seqA[i]? = some s ∧
        (seqB[i]?.getD []).length < s.length) ∧
    (accuracy decode X Y = none ↔
      (accLoop decode (X.zip Y) (0, 0)).2 = 0) := by
  refine ⟨pair_counts_none_iff seqA seqB, ?_⟩
  by_cases h : (accLoop decode (X.zip Y) (0, 0)).2 = 0 <;> simp [accuracy, h]

/-- Claim C7 (counterexample) — mismatched inputs on which the program
does not fail: `pair_counts` silently processes a word sentence shorter
than its tag sentence, and `accuracy` silently truncates a length-2 word
sentence against a length-1 tag sentence, returning a ratio. -/
theorem c7_counterexample :
    pair_counts [["a"]] [["x", "y"]] = some [("a", [("x", 1)])] ∧
    accuracy (fun s => some (s.map fun _ => "T")) [["a", "b"]] [["T"]] =
      some (((1 : ℕ) : ℚ) / ((2 : ℕ) : ℚ)) :=
  ⟨rfl, rfl⟩

/-- Claim C10 — when the word-sequence collection is empty or has only
empty sentences, the token total is `0` and `accuracy` fails with a
`ZeroDivisionError` (modelled as `none`): a positive token total is a
precondition of the evaluator. -/
theorem c10_accuracy_zero_division (decode : List String → Option (List String))
    (X Y : List (List String)) (h : ∀ s ∈ X, s = []) :
    accuracy decode X Y = none := by
  simp only [accuracy]
  rw [if_pos (accLoop_total_zero decode X Y h)]

theorem c10_accuracy_zero_division_witness :
    (∀ s ∈ ([[], []] : List (List String)), s = []) ∧
    accuracy decodeC10 [[], []] [["T"], []] = none :=
  ⟨by decide, c10_accuracy_zero_division decodeC10 [[], []] [["T"], []]
    (by decide)⟩

/-- Claim C1 — the built HMM carries exactly the normalized tables: the
state of tag `t` gives word `w` the emission probability
`emission_counts[t][w] / tag_unigrams[t]`, every observed bigram
`(t1, t2)` yields the transition `tag_bigrams[(t1,t2)] / tag_unigrams[t1]`,
and the end transition of `t1` has probability
`tag_ends[t1] / len(data.training_set.Y)`. -/
theorem c1_hmm_normalization (X Y : List (List String)) (m : Model)
    (ec : List (String × List (String × ℕ))) (ends : List (String × ℕ))
    (wcs : List (String × ℕ)) (t w t1 t2 : String) (c u cb u1 e : ℕ)
    (hm : basic_model X Y = some m)
    (hec : pair_counts Y X = some ec)
    (hends : ending_counts Y = some ends)
    (h1 : lookup ec t = some wcs)
    (h2 : lookup wcs w = some c)
    (h3 : lookup (unigram_counts Y) t = some u)
    (h4 : lookup (bigram_counts Y) (t1, t2) = some cb)
    (h5 : lookup (unigram_counts Y) t1 = some u1)
    (h6 : lookup ends t1 = some e) :
    ((lookup m.states t).bind fun ps => lookup ps w) =
      some ((c : ℚ) / (u : ℚ)) ∧
    (Node.tag t1, Node.tag t2, (cb : ℚ) / (u1 : ℚ)) ∈ m.transitions ∧
    (Node.tag t1, Node.stop, (e : ℚ) / (Y.length : ℚ)) ∈ m.transitions := by
  obtain ⟨ec2, sts, starts2, ends2, ts, hec2, hsts, hst2, hen2, hts, hm2⟩ :=
    basic_model_some X Y m hm
  rw [hec] at hec2
  cases Option.some_inj.mp hec2
  rw [hends] at hen2
  cases Option.some_inj.mp hen2
  subst hm2
  refine ⟨?_, ?_, ?_⟩
  · obtain ⟨total, htot, hnz, hlook⟩ :=
      statesLoop_lookup (unigram_counts Y) ec sts t wcs hsts h1
    rw [h3] at htot
    cases Option.some_inj.mp htot
    show ((lookup sts t).bind fun ps => lookup ps w) = _
    rw [hlook]
    simp only [Option.some_bind]
    rw [lookup_map_ratio, h2]
    rfl
  · obtain ⟨s0, u0, e0, hs0, hu0, he0, m1, m2, m3⟩ :=
      transLoop_mem sts (unigram_counts Y) starts2 ends Y.length
        (bigram_counts Y) ts hts t1 t2 cb (lookup_some_mem _ _ _ h4)
    rw [h5] at hu0
    cases Option.some_inj.mp hu0
    exact m2
  · obtain ⟨s0, u0, e0, hs0, hu0, he0, m1, m2, m3⟩ :=
      transLoop_mem sts (unigram_counts Y) starts2 ends Y.length
        (bigram_counts Y) ts hts t1 t2 cb (lookup_some_mem _ _ _ h4)
    rw [h6] at he0
    cases Option.some_inj.mp he0
    exact m3

theorem c1_hmm_normalization_witness :
    basic_model Xc1 Yc1 = some Mc1 ∧
    pair_counts Yc1 Xc1 = some ECc1 ∧
    ending_counts Yc1 = some ENc1 ∧
    lookup ECc1 "A" = some [("w", 1), ("v", 1)] ∧
    lookup [("w", 1), ("v", 1)] "w" = some 1 ∧
    lookup (unigram_counts Yc1) "A" = some 2 ∧
    lookup (bigram_counts Yc1) ("A", "A") = some 1 ∧
    lookup (unigram_counts Yc1) "A" = some 2 ∧
    lookup ENc1 "A" = some 1 ∧
    (((lookup Mc1.states "A").bind fun ps => lookup ps "w") =
        some (((1 : ℕ) : ℚ) / ((2 : ℕ) : ℚ)) ∧
      (Node.tag "A", Node.tag "A", ((1 : ℕ) : ℚ) / ((2 : ℕ) : ℚ)) ∈
        Mc1.transitions ∧
      (Node.tag "A", Node.stop, ((1 : ℕ) : ℚ) / (Yc1.length : ℚ)) ∈
        Mc1.transitions) :=
  ⟨rfl, rfl, rfl, rfl, rfl, rfl, rfl, rfl, rfl,
    c1_hmm_normalization Xc1 Yc1 Mc1 ECc1 ENc1 [("w", 1), ("v", 1)]
      "A" "w" "A" "A" 1 2 1 2 1 rfl rfl rfl rfl rfl rfl rfl rfl rfl⟩

/-- Claim C6 — the MFC baseline decodes each in-vocabulary word to a tag
of maximal recorded co-occurrence count for that exact word (from
`pair_counts(words, tags)`), and each word never seen in training to the
distinguished `<MISSING>` tag. -/
theorem c6_mfc_tagger (X Y : List (List String))
    (wc : List (String × List (String × ℕ))) (tbl : List (String × String))
    (seq : List String) (i : ℕ) (w : String)
    (hwc : pair_counts X Y = some wc)
    (htbl : mfc_table X Y = some tbl)
    (hw : seq[i]? = some w) :
    (w ∈ vocab X →
      ∃ (t : String) (tags : List (String × ℕ)) (c : ℕ),
        (mfcDecode tbl seq)[i]? = some t ∧ lookup wc w = some tags ∧
        lookup tags t = some c ∧
        ∀ (t2 : String) (c2 : ℕ), lookup tags t2 = some c2 → c2 ≤ c) ∧
    (w ∉ vocab X → (mfcDecode tbl seq)[i]? = some "<MISSING>") := by
  simp only [mfc_table, hwc] at htbl
  have hml := mfcLoop_some wc (vocab X) tbl htbl
  have hdec : (mfcDecode tbl seq)[i]? =
      some ((lookup tbl w).getD "<MISSING>") := by
    rw [mfcDecode, map_getElem?, hw]
    rfl
  constructor
  · intro hv
    obtain ⟨tags, t, ht1, ht2, ht3⟩ := hml.1 w hv
    obtain ⟨c, hmem, hall⟩ := pymax_spec tags t ht2
    have hok := pair_counts_D2ok X Y wc hwc
    have hnd : (keysOf tags).Nodup :=
      hok.2 (w, tags) (lookup_some_mem wc w tags ht1)
    refine ⟨t, tags, c, ?_, ht1, lookup_eq_of_mem tags t c hnd hmem, ?_⟩
    · rw [hdec, ht3]
      rfl
    · intro t2 c2 hl2
      exact hall (t2, c2) (lookup_some_mem tags t2 c2 hl2)
  · intro hv
    rw [hdec, hml.2 w hv]
    rfl

theorem c6_mfc_tagger_witness :
    pair_counts Xc6 Yc6 = some WCc6 ∧
    mfc_table Xc6 Yc6 = some TBc6 ∧
    (["x", "z"] : List String)[0]? = some "x" ∧
    (("x" ∈ vocab Xc6 →
      ∃ (t : String) (tags : List (String × ℕ)) (c : ℕ),
        (mfcDecode TBc6 ["x", "z"])[0]? = some t ∧
        lookup WCc6 "x" = some tags ∧ lookup tags t = some c ∧
        ∀ (t2 : String) (c2 : ℕ), lookup tags t2 = some c2 → c2 ≤ c) ∧
     ("x" ∉ vocab Xc6 →
      (mfcDecode TBc6 ["x", "z"])[0]? = some "<MISSING>")) :=
  ⟨rfl, rfl, rfl,
    c6_mfc_tagger Xc6 Yc6 WCc6 TBc6 ["x", "z"] 0 "x" rfl rfl rfl⟩

/-- Claim C8 — for a tag `t` heading `k` distinct observed bigrams, the
build loop adds `k` copies of the `start → t` and `t → end` transitions
(all with the same probability), while each `t → t2` transition is added
once per distinct bigram `(t, t2)`. -/
theorem c8_transition_multiplicity (X Y : List (List String)) (m : Model)
    (hm : basic_model X Y = some m) (t : String) :
    (keysOf (bigram_counts Y)).Nodup ∧
    m.transitions.countP (isStartEdge t) =
      (bigram_counts Y).countP (fun bc => decide (bc.1.1 = t)) ∧
    m.transitions.countP (isStopEdge t) =
      (bigram_counts Y).countP (fun bc => decide (bc.1.1 = t)) ∧
    (∀ t2 : String, m.transitions.countP (isTagEdge t t2) =
      (bigram_counts Y).countP (fun bc => decide (bc.1 = (t, t2)))) ∧
    (∀ p q : ℚ, (Node.start, Node.tag t, p) ∈ m.transitions →
      (Node.start, Node.tag t, q) ∈ m.transitions → p = q) ∧
    (∀ p q : ℚ, (Node.tag t, Node.stop, p) ∈ m.transitions →
      (Node.tag t, Node.stop, q) ∈ m.transitions → p = q) := by
  obtain ⟨ec, sts, starts, ends, ts, hec, hsts, hst, hen, hts, hm2⟩ :=
    basic_model_some X Y m hm
  subst hm2
  obtain ⟨hc1, hc2, hc3⟩ :=
    transLoop_counts sts (unigram_counts Y) starts ends Y.length t
      (bigram_counts Y) ts hts
  refine ⟨bigram_counts_keysOf_nodup Y, hc1, hc2, hc3, ?_, ?_⟩
  · intro p q hp hq
    obtain ⟨s0, hs0, hp2⟩ :=
      transLoop_start_prob sts (unigram_counts Y) starts ends Y.length
        (bigram_counts Y) ts hts t p hp
    obtain ⟨s1, hs1, hq2⟩ :=
      transLoop_start_prob sts (unigram_counts Y) starts ends Y.length
        (bigram_counts Y) ts hts t q hq
    rw [hs0] at hs1
    cases Option.some_inj.mp hs1
    rw [hp2, hq2]
  · intro p q hp hq
    obtain ⟨e0, he0, hp2⟩ :=
      transLoop_stop_prob sts (unigram_counts Y) starts ends Y.length
        (bigram_counts Y) ts hts t p hp
    obtain ⟨e1, he1, hq2⟩ :=
      transLoop_stop_prob sts (unigram_counts Y) starts ends Y.length
        (bigram_counts Y) ts hts t q hq
    rw [he0] at he1
    cases Option.some_inj.mp he1
    rw [hp2, hq2]

theorem c8_transition_multiplicity_witness :
    basic_model Xc8 Yc8 = some Mc8 ∧
    Mc8.transitions.countP (isStartEdge "A") = 2 ∧
    (bigram_counts Yc8).countP (fun bc => decide (bc.1.1 = "A")) = 2 ∧
    Mc8.transitions.countP (isStartEdge "A") =
      (bigram_counts Yc8).countP (fun bc => decide (bc.1.1 = "A")) :=
  ⟨rfl, by decide, by decide,
    (c8_transition_multiplicity Xc8 Yc8 Mc8 rfl "A").2.1⟩

/-- Claim C9 — even when every bigram tag is present in the unigram and
emission tables (consistency in the spec's sense), the build loop fails
(`KeyError` on `tag_starts[b0]` or `tag_ends[b0]`) as soon as some tag
heading an observed bigram never begins, or never ends, a training
sentence. -/
theorem c9_build_keyerror (X Y : List (List String))
    (ec : List (String × List (String × ℕ)))
    (starts ends : List (String × ℕ)) (b0 b1 : String) (c : ℕ)
    (hec : pair_counts Y X = some ec)
    (hstarts : starting_counts Y = some starts)
    (hends : ending_counts Y = some ends)
    (hb : lookup (bigram_counts Y) (b0, b1) = some c)
    (hcons : ∀ bc ∈ bigram_counts Y,
      (lookup (unigram_counts Y) bc.1.1).isSome ∧
      (lookup (unigram_counts Y) bc.1.2).isSome ∧
      (lookup ec bc.1.1).isSome ∧ (lookup ec bc.1.2).isSome)
    (hmiss : lookup starts b0 = none ∨ lookup ends b0 = none) :
    basic_model X Y = none := by
  cases hsts : statesLoop (unigram_counts Y) ec with
  | none => simp [basic_model, hec, hsts]
  | some sts =>
      have htrans : transLoop sts (unigram_counts Y) starts ends Y.length
          (bigram_counts Y) = none :=
        transLoop_missing_none sts (unigram_counts Y) starts ends Y.length
          (bigram_counts Y) ⟨b0, b1, c, lookup_some_mem _ _ _ hb, hmiss⟩
      simp [basic_model, hec, hsts, hstarts, hends, htrans]

theorem c9_build_keyerror_witness :
    pair_counts Yc9 Xc9 = some ECc9 ∧
    starting_counts Yc9 = some STc9 ∧
    ending_counts Yc9 = some ENc9 ∧
    lookup (bigram_counts Yc9) ("A", "B") = some 1 ∧
    (∀ bc ∈ bigram_counts Yc9,
      (lookup (unigram_counts Yc9) bc.1.1).isSome ∧
      (lookup (unigram_counts Yc9) bc.1.2).isSome ∧
      (lookup ECc9 bc.1.1).isSome ∧ (lookup ECc9 bc.1.2).isSome) ∧
    (lookup STc9 "A" = none ∨ lookup ENc9 "A" = none) ∧
    basic_model Xc9 Yc9 = none :=
  ⟨rfl, rfl, rfl, rfl, by decide, Or.inr (by decide),
    c9_build_keyerror Xc9 Yc9 ECc9 STc9 ENc9 "A" "B" 1 rfl rfl rfl rfl
      (by decide) (Or.inr (by decide))⟩

end PosTagging
